import Mathlib

/-!
Verification of the client-side search and i18n code of the `sitio_personal`
static site (files `js/buscador.js`, `js/i18n.js`, `js/languageSelector.js`).

Strings are modelled as `List Char`.  JavaScript's `toLowerCase` and the
regex `i` flag are both modelled by per-character lowering (`Char.toLower`);
`String.prototype.trim` is modelled by dropping whitespace characters
(`Char.isWhitespace`) from both ends.  These are the standard abstractions of
the browser primitives for the ASCII/Latin texts the site serves.
-/

/-- JavaScript strings, modelled as lists of characters. -/
abbrev Str := List Char

/-- Model of `String.prototype.toLowerCase` (per-character lowering). -/
def lowerStr (s : Str) : Str := s.map Char.toLower

/-- Whitespace test used by the model of `String.prototype.trim`. -/
def wsChar (c : Char) : Bool := c.isWhitespace

/-- Model of `String.prototype.trim`: drop whitespace from both ends. -/
def trimStr (s : Str) : Str :=
  ((s.dropWhile wsChar).reverse.dropWhile wsChar).reverse

/-- Helper for `splitChar`; accumulates the current (reversed) segment. -/
def splitAuxCh (sep : Char) : Str → Str → List Str
  | [], acc => [acc.reverse]
  | c :: rest, acc =>
    if c = sep then acc.reverse :: splitAuxCh sep rest []
    else splitAuxCh sep rest (c :: acc)

/-- Model of `String.prototype.split` with a single-character separator:
`"".split(sep)` is `[""]`, `"a.b".split(".")` is `["a","b"]`. -/
def splitChar (sep : Char) (s : Str) : List Str := splitAuxCh sep s []

/-- Model of JavaScript `a || b` on strings: the empty string is falsy. -/
def orStr (a b : Str) : Str := if a = [] then b else a

/-- `leadEq q s` holds when `q` is an initial segment of `s`
(the empty `q` is an initial segment of everything, as in JS `indexOf`). -/
def leadEq (q s : Str) : Bool := s.take q.length == q

/-- Model of `String.prototype.indexOf`: index of the first position of `s`
at which `q` starts, `none` when there is none (JS returns `-1`). -/
def idxOf (q : Str) : Str → Option Nat
  | [] => if leadEq q [] then some 0 else none
  | c :: rest =>
    if leadEq q (c :: rest) then some 0 else (idxOf q rest).map Nat.succ

/-- The characters escaped by `Buscador.escapeRegExp`
(the class `[.*+?^${}()|[\]\\]` in the source; braces via `Char.ofNat`). -/
def regexMeta : List Char :=
  ['.', '*', '+', '?', '^', '$', Char.ofNat 123, Char.ofNat 125,
   '(', ')', '|', '[', ']', '\\']

/-- Embedding of `Buscador.escapeRegExp`:
`string.replace(/[.*+?^$\x7b\x7d()|[\]\\]/g, "\\$&")`,
i.e. a backslash is put before every regex metacharacter. -/
def escapeRegExp : Str → Str
  | [] => []
  | c :: rest =>
    if regexMeta.contains c then '\\' :: c :: escapeRegExp rest
    else c :: escapeRegExp rest

/-- Interpretation of a regex pattern that consists only of literal atoms:
a non-metacharacter stands for itself, a backslash followed by a
metacharacter stands for that character literally, and any construct that
a regex engine would treat as an operator (an unescaped metacharacter, a
class escape, a trailing backslash) yields `none`.  `litOf p = some s`
says the pattern `p` matches exactly the literal string `s`. -/
def litOf : Str → Option Str
  | [] => some []
  | '\\' :: [] => none
  | '\\' :: d :: rest2 =>
    if regexMeta.contains d then (litOf rest2).map (fun t => d :: t)
    else none
  | c :: rest =>
    if regexMeta.contains c then none
    else (litOf rest).map (fun t => c :: t)

/-- The opening highlight marker inserted by the snippet builder. -/
def moStr : Str := "<mark>".toList

/-- The closing highlight marker inserted by the snippet builder. -/
def mcStr : Str := "</mark>".toList

/-- `ciHere q s` holds when a case-insensitive occurrence of `q` starts at
the head of `s`. -/
def ciHere (q s : Str) : Bool := lowerStr (s.take q.length) == lowerStr q

/-- Worker for `highlightAll`; the first argument is fuel making the
recursion structural.  With fuel at least the length of the scanned
string (and a non-empty `q`) the fuel never runs out. -/
def hlGo (q : Str) : Nat → Str → Str
  | _, [] => []
  | 0, s => s
  | n + 1, c :: rest =>
    if ciHere q (c :: rest) then
      moStr ++ (c :: rest).take q.length ++ mcStr ++
        hlGo q n ((c :: rest).drop q.length)
    else
      c :: hlGo q n rest

/-- Embedding of `snippet.replace(new RegExp("(" + escapeRegExp(q) + ")", "ig"),
"<mark>$1</mark>")`: the global case-insensitive replace scans left to right
and wraps each (non-overlapping) occurrence of the literal `q` in
`<mark>...</mark>`, keeping the occurrence's original characters (`$1`).
`search()` only reaches this with a non-empty `q`. -/
def highlightAll (q s : Str) : Str := hlGo q s.length s

/-- Embedding of `plain.toLowerCase().indexOf(q.toLowerCase())` from
`Buscador.search`. -/
def firstIdx (plain q : Str) : Option Nat := idxOf (lowerStr q) (lowerStr plain)

/-- The snippet window of `Buscador.search`:
`plain.substring(max(0, idx - 80), min(plain.length, idx + 80))`.
Natural-number subtraction makes `idx - 80` exactly `max(0, idx - 80)`;
`substring(start, end)` is take-then-drop. -/
def windowOf (plain : Str) (idx : Nat) : Str :=
  (plain.take (min plain.length (idx + 80))).drop (idx - 80)

/-- Embedding of the snippet construction in `Buscador.search`: the
window around the first match, trimmed, then the global highlight
replace. -/
def snippetOf (q plain : Str) (idx : Nat) : Str :=
  highlightAll q (trimStr (windowOf plain idx))

/-- A search result: the page identifier and its highlighted snippet. -/
structure SearchResult where
  file : Str
  snippet : Str
deriving DecidableEq

/-- Embedding of the `texts.forEach((text, i) => ...)` loop of
`Buscador.search`.  `extract` stands for the composition
DOMParser-parse / optional `i18n.translate` / `doc.body.textContent`
applied to the fetched HTML; a page whose fetched text is the empty
string (`if (!text) return`) or whose extracted text has no
case-insensitive occurrence of the query contributes nothing. -/
def searchGo (extract : Str → Str) (files : List Str) (q : Str) :
    Nat → List Str → List SearchResult
  | _, [] => []
  | i, t :: ts =>
    if t = [] then searchGo extract files q (i + 1) ts
    else
      match firstIdx (extract t) q with
      | none => searchGo extract files q (i + 1) ts
      | some idx =>
        ⟨files.getD i [], snippetOf q (extract t) idx⟩ ::
          searchGo extract files q (i + 1) ts

/-- The result list built by `Buscador.search` from the fetched texts. -/
def searchTexts (extract : Str → Str) (files texts : List Str) (q : Str) :
    List SearchResult :=
  searchGo extract files q 0 texts

/-- The indices (with their texts) of the pages that contribute a result,
in traversal order; specification-side companion of `searchGo`. -/
def matchList (extract : Str → Str) (q : Str) : Nat → List Str → List (Nat × Str)
  | _, [] => []
  | i, t :: ts =>
    if t = [] then matchList extract q (i + 1) ts
    else
      match firstIdx (extract t) q with
      | none => matchList extract q (i + 1) ts
      | some _ => (i, t) :: matchList extract q (i + 1) ts

/-- The result contributed by one matching page. -/
def resultOf (extract : Str → Str) (files : List Str) (q : Str)
    (p : Nat × Str) : SearchResult :=
  ⟨files.getD p.1 [], snippetOf q (extract p.2) ((firstIdx (extract p.2) q).getD 0)⟩

/-- `MarkedCI q s out` says `out` is `s` with every case-insensitive
occurrence of `q` wrapped in `<mark>...</mark>`, in the left-to-right,
non-overlapping sense of a global regex replace: a character is emitted
unwrapped only at a position where no occurrence of `q` starts, and each
wrapped block is a chunk of `s` (original casing) that matches `q`
case-insensitively. -/
inductive MarkedCI (q : Str) : Str → Str → Prop where
  | done : MarkedCI q [] []
  | wrap : ∀ (c : Char) (rest out : Str), ciHere q (c :: rest) = true →
      MarkedCI q ((c :: rest).drop q.length) out →
      MarkedCI q (c :: rest) (moStr ++ (c :: rest).take q.length ++ mcStr ++ out)
  | keep : ∀ (c : Char) (rest out : Str), ciHere q (c :: rest) = false →
      MarkedCI q rest out →
      MarkedCI q (c :: rest) (c :: out)

/-- An HTTP response as seen by `fetch`: the success flag (`ok`, i.e. the
status is in the 2xx range) and the body text delivered by `r.text()`. -/
structure Response where
  ok : Bool
  body : Str

/-- Embedding of one slot of `Buscador.fetchFiles`:
`fetch(f).then(r => r.text()).catch(() => "")`.  Per the fetch API a
returned promise rejects only on a network-level failure (modelled by
`Except.error`); an HTTP error status still resolves with a `Response`,
and since the code never consults `r.ok`, the body text of such a
response is returned as-is. -/
def fetchFile (outcome : Except Unit Response) : Str :=
  match outcome with
  | Except.error _ => []
  | Except.ok r => r.body

/-- Embedding of `Buscador.fetchFiles`: fetch every configured file in
order (`net` gives each file's outcome); the function is total, so the
modelled promise never rejects. -/
def fetchFilesM (files : List Str) (net : Str → Except Unit Response) : List Str :=
  files.map (fun f => fetchFile (net f))

/-- A JavaScript value as it occurs in a parsed translation table:
`undefined`, a string, or an object (an ordered association list; the
first binding of a key wins, as in a JS object literal read left to
right).  Indexing a string by a property name is modelled as `undefined`
(the model ignores JS string properties such as `length`). -/
inductive JVal where
  | undef : JVal
  | str : Str → JVal
  | obj : List (Str × JVal) → JVal

/-- JavaScript truthiness of a `JVal`: `undefined` and the empty string
are falsy, every object (including the empty object) is truthy. -/
def truthy : JVal → Bool
  | JVal.undef => false
  | JVal.str s => !(s == [])
  | JVal.obj _ => true

/-- Is this value `undefined`? -/
def isUndef : JVal → Bool
  | JVal.undef => true
  | _ => false

/-- Is this value a string? -/
def jIsStr : JVal → Bool
  | JVal.str _ => true
  | _ => false

/-- First-binding lookup in the entry list of an object. -/
def lookupEntries : List (Str × JVal) → Str → JVal
  | [], _ => JVal.undef
  | (k, v) :: rest, key => if k = key then v else lookupEntries rest key

/-- Model of JS property access `v[k]`: a lookup on objects, `undefined`
on anything else. -/
def indexJ : JVal → Str → JVal
  | JVal.obj es, k => lookupEntries es k
  | _, _ => JVal.undef

/-- Model of JS `a || b` on values. -/
def orJ (a b : JVal) : JVal := if truthy a then a else b

/-- The translation cache `this.translations`, an object mapping language
codes to parsed tables. -/
abbrev CacheL := List (Str × JVal)

/-- Property read `this.translations[lang]`. -/
def getC (cache : CacheL) (lang : Str) : JVal := lookupEntries cache lang

/-- Property write `this.translations[lang] = v`. -/
def setC : CacheL → Str → JVal → CacheL
  | [], lang, v => [(lang, v)]
  | (k, w) :: rest, lang, v =>
    if k = lang then (k, v) :: rest else (k, w) :: setC rest lang v

/-- The table used by `I18n.t`:
`this.translations[this.currentLanguage] || {}`. -/
def tableOf (cache : CacheL) (lang : Str) : JVal := orJ (getC cache lang) (JVal.obj [])

/-- Embedding of the walk in `I18n.t`:
`for (let k of keys) { obj = obj[k]; if (!obj) return key; } return obj`. -/
def tGo : JVal → List Str → Str → JVal
  | v, [], _ => v
  | v, k :: ks, key =>
    if truthy (indexJ v k) then tGo (indexJ v k) ks key else JVal.str key

/-- Embedding of `I18n.t(key)`: split the key on `.` and walk the cached
table of the current language. -/
def tKey (cache : CacheL) (lang : Str) (key : Str) : JVal :=
  tGo (tableOf cache lang) (splitChar '.' key) key

/-- Specification-side resolution: follow the dotted path, stopping with
`none` as soon as a step yields a falsy value (mirrors the truthiness
guard of the walk). -/
def walkResolve : JVal → List Str → Option JVal
  | v, [] => some v
  | v, k :: ks =>
    if truthy (indexJ v k) then walkResolve (indexJ v k) ks else none

/-- Pure path lookup: follow the dotted path, `none` only when a step is
`undefined` (a falsy but defined value is followed). -/
def lookupPath : JVal → List Str → Option JVal
  | v, [] => some v
  | v, k :: ks =>
    if isUndef (indexJ v k) then none else lookupPath (indexJ v k) ks

/-- Embedding of `I18n.loadTranslations(lang)` as a transition on the
cache.  `outcome` is the result of `fetch` plus `response.json()`:
`Except.error` covers a network failure, a non-ok response (the code
throws on `!response.ok`) and a JSON parse failure, all of which land in
the `catch` that stores the empty table.  The returned flag records
whether a fetch was issued.  The function is total: the modelled promise
never rejects. -/
def loadTranslations (cache : CacheL) (lang : Str)
    (outcome : Except Unit JVal) : CacheL × Bool :=
  if truthy (getC cache lang) then (cache, false)
  else
    match outcome with
    | Except.ok j => (setC cache lang j, true)
    | Except.error _ => (setC cache lang (JVal.obj []), true)

/-- The primary subtag of the navigation locale:
`navigator.language.split("-")[0]`. -/
def localePrimary (nav : Str) : Str := (splitChar '-' nav).headD []

/-- Embedding of `I18n.getStoredLanguage`:
`localStorage.getItem("language") || navigator.language.split("-")[0]`
(`getItem` yields `null`, modelled as `none`, when no preference is
stored; `null` and the empty string are both falsy). -/
def getStoredLanguage (stored : Option Str) (nav : Str) : Str :=
  orStr (stored.getD []) (localePrimary nav)

/-- The fixed default language. -/
def esL : Str := "es".toList

/-- Embedding of the constructor assignment
`this.currentLanguage = this.getStoredLanguage() || "es"`. -/
def initialLanguage (stored : Option Str) (nav : Str) : Str :=
  orStr (getStoredLanguage stored nav) esL

/-- The supported set `this.supportedLanguages = ["es", "en"]`. -/
def supportedLanguages : List Str := ["es".toList, "en".toList]

/-- A DOM element: tag name, text content and child elements.  Markup
assigned via `innerHTML` is kept as text; the structure of the snippet
markup is irrelevant to the rendering claims. -/
inductive Node where
  | mk : Str → Str → List Node → Node

/-- The tag name of a node. -/
def Node.tag : Node → Str
  | Node.mk t _ _ => t

/-- The heading tag name. -/
def h2Tag : Str := "h2".toList

/-- Model of `resultsEl.querySelector("h2")`: the first element with tag
`h2` in document (depth-first, node before children before siblings)
order among the container's descendants. -/
def findH2 : List Node → Option Node
  | [] => none
  | Node.mk t x ks :: rest =>
    if t = h2Tag then some (Node.mk t x ks)
    else
      match findH2 ks with
      | some h => some h
      | none => findH2 rest

/-- Embedding of `Buscador.clearResultsEl`: remember the first `h2`
descendant, remove every child, and re-insert the remembered `h2` (as
the only child) when there was one. -/
def clearResultsEl (c : List Node) : List Node :=
  match findH2 c with
  | none => []
  | some h => [h]

/-- A paragraph node carrying a message. -/
def pNode (msg : Str) : Node := Node.mk "p".toList msg []

/-- The `<article data-result>` built by `renderResults` for one result:
an `h3` holding the link and a `p` holding `"..." + snippet + "..."`. -/
def resultArticle (r : SearchResult) : Node :=
  Node.mk "article".toList []
    [Node.mk "h3".toList [] [Node.mk "a".toList r.file []],
     Node.mk "p".toList ("...".toList ++ r.snippet ++ "...".toList) []]

/-- Embedding of `Buscador.renderNoQuery`: appends the message paragraph
to the container; note that the source does NOT call `clearResultsEl`
here. -/
def renderNoQuery (msg : Str) (c : List Node) : List Node :=
  c ++ [pNode msg]

/-- Embedding of `Buscador.renderNoResults`: clears the container (keeping
the `h2`) and appends the message paragraph. -/
def renderNoResults (msg : Str) (c : List Node) : List Node :=
  clearResultsEl c ++ [pNode msg]

/-- Embedding of `Buscador.renderResults`: clears the container (keeping
the `h2`) and appends one article per result, in order. -/
def renderResults (rs : List SearchResult) (c : List Node) : List Node :=
  clearResultsEl c ++ rs.map resultArticle

/-- The preserved heading, as a (zero- or one-element) child list. -/
def h2Opt (c : List Node) : List Node :=
  match findH2 c with
  | none => []
  | some h => [h]

/-- Outcome of `Buscador.run`: the final children of the results
container, the error that was logged (if any), and whether an exception
escaped to the caller. -/
structure RunOutcome where
  container : List Node
  logged : Option Str
  escaped : Bool

/-- The generic error paragraph rendered by the second variant of `run`:
`this.resultsEl.innerHTML = "<p>Error al buscar. Revisa la consola.</p>"`
(an `innerHTML` assignment replaces every child, including a heading). -/
def errNode : Node := pNode "Error al buscar. Revisa la consola.".toList

/-- Embedding of the first variant of `Buscador.run` (the commented file):
`try { await this.search(); } catch (e) { console.error(...); }`.
`res` is the outcome of `search()`: on normal completion the container
it left behind, on an exception the message; `cth` is the container
state at the moment the exception was thrown.  The catch only logs. -/
def runV1 (res : Except Str (List Node)) (cth : List Node) : RunOutcome :=
  match res with
  | Except.ok c => ⟨c, none, false⟩
  | Except.error e => ⟨cth, some e, false⟩

/-- Embedding of the second variant of `Buscador.run` (the module file):
the catch logs and additionally replaces the results container content
with the generic error paragraph. -/
def runV2 (res : Except Str (List Node)) (cth : List Node) : RunOutcome :=
  match res with
  | Except.ok c => ⟨c, none, false⟩
  | Except.error e => ⟨[errNode], some e, false⟩

/-- The pattern produced by `escapeRegExp` is a pure literal: interpreted
by the literal-atom regex semantics it matches exactly the original
string, for every input. -/
theorem litOf_escapeRegExp (q : Str) : litOf (escapeRegExp q) = some q := by
  induction q with
  | nil => rfl
  | cons c rest ih =>
    by_cases hm : c ∈ regexMeta
    · simp [escapeRegExp, hm, litOf, ih]
    · have hc : ¬ (c = '\\') := by
        intro h
        subst h
        exact hm (by decide)
      have hstep : escapeRegExp (c :: rest) = c :: escapeRegExp rest := by
        simp [escapeRegExp, hm]
      rw [hstep]
      simp [litOf, hc, hm, ih]

/-- Dropping leading whitespace never lengthens a string. -/
theorem dropWhile_len_le (p : Char → Bool) (l : Str) :
    (l.dropWhile p).length ≤ l.length :=
  (List.dropWhile_suffix p).sublist.length_le

/-- Trimming never lengthens a string. -/
theorem trimStr_len_le (s : Str) : (trimStr s).length ≤ s.length := by
  have h1 : ((s.dropWhile wsChar).reverse.dropWhile wsChar).length ≤
      (s.dropWhile wsChar).reverse.length := dropWhile_len_le _ _
  have h2 : (s.dropWhile wsChar).length ≤ s.length := dropWhile_len_le _ _
  simp only [trimStr, List.length_reverse] at h1 ⊢
  omega

/-- The snippet window `substring(max(0, idx - 80), min(length, idx + 80))`
holds at most 160 characters. -/
theorem windowLen_le (plain : Str) (idx : Nat) :
    (windowOf plain idx).length ≤ 160 := by
  simp only [windowOf, List.length_drop, List.length_take]
  omega

/-- `hlGo` with enough fuel realizes the `MarkedCI` marking relation:
every (greedy, left-to-right) case-insensitive occurrence of the
non-empty query is wrapped, unwrapped characters sit at positions where
no occurrence starts, and wrapped chunks keep their original casing. -/
theorem markedCI_hlGo (q : Str) (hq : q ≠ []) :
    ∀ (n : Nat) (s : Str), s.length ≤ n → MarkedCI q s (hlGo q n s) := by
  intro n
  induction n with
  | zero =>
    intro s hs
    have hs0 : s = [] := List.length_eq_zero.mp (Nat.le_zero.mp hs)
    subst hs0
    exact MarkedCI.done
  | succ n ih =>
    intro s hs
    cases s with
    | nil => exact MarkedCI.done
    | cons c rest =>
      by_cases hc : ciHere q (c :: rest)
      · have hlen : ((c :: rest).drop q.length).length ≤ n := by
          have hp : 0 < q.length := List.length_pos.mpr hq
          simp only [List.length_drop, List.length_cons]
          simp only [List.length_cons] at hs
          omega
        have hstep : hlGo q (n + 1) (c :: rest) =
            moStr ++ (c :: rest).take q.length ++ mcStr ++
              hlGo q n ((c :: rest).drop q.length) := by
          simp [hlGo, hc]
        rw [hstep]
        exact MarkedCI.wrap c rest _ hc (ih _ hlen)
      · have hstep : hlGo q (n + 1) (c :: rest) = c :: hlGo q n rest := by
          simp [hlGo, hc]
        rw [hstep]
        refine MarkedCI.keep c rest _ ?_ (ih rest ?_)
        · simpa using hc
        · simp only [List.length_cons] at hs
          omega

/-- `highlightAll` realizes the marking relation. -/
theorem markedCI_highlightAll (q s : Str) (hq : q ≠ []) :
    MarkedCI q s (highlightAll q s) :=
  markedCI_hlGo q hq s.length s le_rfl

/-- The search loop produces exactly one result per element of
`matchList`, in the same order. -/
theorem searchGo_eq_matchList (extract : Str → Str) (files : List Str) (q : Str) :
    ∀ (ts : List Str) (i : Nat),
      searchGo extract files q i ts =
        (matchList extract q i ts).map (resultOf extract files q) := by
  intro ts
  induction ts with
  | nil => intro i; rfl
  | cons t ts ih =>
    intro i
    by_cases ht : t = []
    · simp [searchGo, matchList, ht, ih]
    · cases hfi : firstIdx (extract t) q with
      | none => simp [searchGo, matchList, ht, hfi, ih]
      | some idx => simp [searchGo, matchList, ht, hfi, ih, resultOf]

/-- Every element of `matchList` comes from an in-range page whose text is
non-empty and contains the query. -/
theorem matchList_mem (extract : Str → Str) (q : Str) :
    ∀ (ts : List Str) (i : Nat) (p : Nat × Str), p ∈ matchList extract q i ts →
      ∃ k, k < ts.length ∧ p.1 = i + k ∧ ts.getD k [] = p.2 ∧ p.2 ≠ [] ∧
        (firstIdx (extract p.2) q).isSome = true := by
  intro ts
  induction ts with
  | nil => intro i p hp; simp [matchList] at hp
  | cons t ts ih =>
    intro i p hp
    by_cases ht : t = []
    · rw [show matchList extract q i (t :: ts) = matchList extract q (i + 1) ts from
        by simp [matchList, ht]] at hp
      obtain ⟨k, hk, h1, h2, h3, h4⟩ := ih (i + 1) p hp
      exact ⟨k + 1, by simp only [List.length_cons]; omega, by omega,
        by simpa using h2, h3, h4⟩
    · cases hfi : firstIdx (extract t) q with
      | none =>
        rw [show matchList extract q i (t :: ts) = matchList extract q (i + 1) ts from
          by simp [matchList, ht, hfi]] at hp
        obtain ⟨k, hk, h1, h2, h3, h4⟩ := ih (i + 1) p hp
        exact ⟨k + 1, by simp only [List.length_cons]; omega, by omega,
          by simpa using h2, h3, h4⟩
      | some idx =>
        rw [show matchList extract q i (t :: ts) =
            (i, t) :: matchList extract q (i + 1) ts from
          by simp [matchList, ht, hfi]] at hp
        rcases List.mem_cons.mp hp with h | h
        · subst h
          exact ⟨0, by simp, by omega, by simp, ht, by simp [hfi]⟩
        · obtain ⟨k, hk, h1, h2, h3, h4⟩ := ih (i + 1) p h
          exact ⟨k + 1, by simp only [List.length_cons]; omega, by omega,
            by simpa using h2, h3, h4⟩

/-- Every in-range page with a non-empty text containing the query
contributes to `matchList`. -/
theorem matchList_complete (extract : Str → Str) (q : Str) :
    ∀ (ts : List Str) (i k : Nat), k < ts.length → ts.getD k [] ≠ [] →
      (firstIdx (extract (ts.getD k [])) q).isSome = true →
      (i + k, ts.getD k []) ∈ matchList extract q i ts := by
  intro ts
  induction ts with
  | nil => intro i k hk _ _; simp at hk
  | cons t ts ih =>
    intro i k hk hne hsome
    cases k with
    | zero =>
      simp only [List.getD_cons_zero] at hne hsome ⊢
      cases hfi : firstIdx (extract t) q with
      | none => rw [hfi] at hsome; simp at hsome
      | some idx =>
        rw [show matchList extract q i (t :: ts) =
            (i, t) :: matchList extract q (i + 1) ts from
          by simp [matchList, hne, hfi]]
        simp
    | succ k =>
      have hmem := ih (i + 1) k (by simp only [List.length_cons] at hk; omega)
        (by simpa using hne) (by simpa using hsome)
      have hmem2 : (i + (k + 1), (t :: ts).getD (k + 1) []) ∈
          matchList extract q (i + 1) ts := by
        rw [List.getD_cons_succ]
        have harr : i + (k + 1) = i + 1 + k := by omega
        rw [harr]
        exact hmem
      by_cases ht : t = []
      · rw [show matchList extract q i (t :: ts) = matchList extract q (i + 1) ts from
          by simp [matchList, ht]]
        exact hmem2
      · cases hfi : firstIdx (extract t) q with
        | none =>
          rw [show matchList extract q i (t :: ts) = matchList extract q (i + 1) ts from
            by simp [matchList, ht, hfi]]
          exact hmem2
        | some idx =>
          rw [show matchList extract q i (t :: ts) =
              (i, t) :: matchList extract q (i + 1) ts from
            by simp [matchList, ht, hfi]]
          exact List.mem_cons_of_mem _ hmem2

/-- Elements of `matchList` carry indices at least the starting index. -/
theorem matchList_lb (extract : Str → Str) (q : Str) (ts : List Str) (i : Nat)
    (p : Nat × Str) (hp : p ∈ matchList extract q i ts) : i ≤ p.1 := by
  obtain ⟨k, _, h1, _⟩ := matchList_mem extract q ts i p hp
  omega

/-- The indices recorded in `matchList` are strictly increasing: each page
contributes at most once, in page-list order. -/
theorem matchList_pairwise (extract : Str → Str) (q : Str) :
    ∀ (ts : List Str) (i : Nat),
      List.Pairwise (fun a b : Nat × Str => a.1 < b.1) (matchList extract q i ts) := by
  intro ts
  induction ts with
  | nil => intro i; simp [matchList]
  | cons t ts ih =>
    intro i
    by_cases ht : t = []
    · simpa [matchList, ht] using ih (i + 1)
    · cases hfi : firstIdx (extract t) q with
      | none => simpa [matchList, ht, hfi] using ih (i + 1)
      | some idx =>
        rw [show matchList extract q i (t :: ts) =
            (i, t) :: matchList extract q (i + 1) ts from
          by simp [matchList, ht, hfi]]
        refine List.Pairwise.cons ?_ (ih (i + 1))
        intro b hb
        have := matchList_lb extract q ts (i + 1) b hb
        omega

/-- The files named by the results form a sublist of the (suffix of the)
configured file list: the result order is the page-list order. -/
theorem searchGo_file_sublist (extract : Str → Str) (files : List Str) (q : Str) :
    ∀ (ts : List Str) (i : Nat), i + ts.length ≤ files.length →
      ((searchGo extract files q i ts).map SearchResult.file).Sublist
        (files.drop i) := by
  intro ts
  induction ts with
  | nil => intro i _; simp [searchGo]
  | cons t ts ih =>
    intro i h
    simp only [List.length_cons] at h
    have hi : i < files.length := by omega
    have hdrop : files.drop i = files[i] :: files.drop (i + 1) :=
      List.drop_eq_getElem_cons hi
    have hsub2 := ih (i + 1) (by omega)
    by_cases ht : t = []
    · rw [show searchGo extract files q i (t :: ts) =
          searchGo extract files q (i + 1) ts from by simp [searchGo, ht]]
      rw [hdrop]
      exact hsub2.trans (List.sublist_cons_self _ _)
    · cases hfi : firstIdx (extract t) q with
      | none =>
        rw [show searchGo extract files q i (t :: ts) =
            searchGo extract files q (i + 1) ts from by simp [searchGo, ht, hfi]]
        rw [hdrop]
        exact hsub2.trans (List.sublist_cons_self _ _)
      | some idx =>
        rw [show searchGo extract files q i (t :: ts) =
            ⟨files.getD i [], snippetOf q (extract t) idx⟩ ::
              searchGo extract files q (i + 1) ts from by simp [searchGo, ht, hfi]]
        rw [hdrop]
        have hgetD : files.getD i [] = files[i] := List.getD_eq_getElem files [] hi
        simp only [List.map_cons]
        rw [hgetD]
        exact List.Sublist.cons₂ _ hsub2

/-- The walk of `I18n.t` returns the resolved value when the truthy
resolution succeeds and the key itself otherwise. -/
theorem tGo_eq_walkResolve (key : Str) :
    ∀ (ks : List Str) (v : JVal),
      tGo v ks key =
        (match walkResolve v ks with
          | some w => w
          | none => JVal.str key) := by
  intro ks
  induction ks with
  | nil => intro v; rfl
  | cons k ks ih =>
    intro v
    by_cases h : truthy (indexJ v k)
    · simp [tGo, walkResolve, h, ih]
    · simp [tGo, walkResolve, h]

/-- A value reached by the truthy resolution from a truthy start is
truthy. -/
theorem walkResolve_truthy :
    ∀ (ks : List Str) (v w : JVal), truthy v = true →
      walkResolve v ks = some w → truthy w = true := by
  intro ks
  induction ks with
  | nil =>
    intro v w hv h
    simp only [walkResolve, Option.some.injEq] at h
    rw [← h]
    exact hv
  | cons k ks ih =>
    intro v w hv h
    by_cases ht : truthy (indexJ v k)
    · rw [show walkResolve v (k :: ks) = walkResolve (indexJ v k) ks from
        by simp [walkResolve, ht]] at h
      exact ih _ _ ht h
    · simp [walkResolve, ht] at h

/-- The table picked by `I18n.t` (`this.translations[lang] || \x7b\x7d`)
is always truthy. -/
theorem truthy_tableOf (cache : CacheL) (lang : Str) :
    truthy (tableOf cache lang) = true := by
  unfold tableOf orJ
  by_cases h : truthy (getC cache lang)
  · rw [if_pos h]
    exact h
  · rw [if_neg h]
    rfl

/-- `split` never yields an empty list of segments. -/
theorem splitAuxCh_ne_nil (sep : Char) :
    ∀ (s acc : Str), splitAuxCh sep s acc ≠ [] := by
  intro s
  induction s with
  | nil => intro acc; simp [splitAuxCh]
  | cons c rest ih =>
    intro acc
    by_cases h : c = sep
    · simp [splitAuxCh, h]
    · simpa [splitAuxCh, h] using ih (c :: acc)

/-- If the pure path lookup of a non-empty dotted path ends at the empty
string (a defined but falsy translation), the walk of `I18n.t` returns
the key. -/
theorem tGo_falsyHit (key : Str) :
    ∀ (ks : List Str) (k : Str) (v : JVal),
      lookupPath v (k :: ks) = some (JVal.str []) →
      tGo v (k :: ks) key = JVal.str key := by
  intro ks
  induction ks with
  | nil =>
    intro k v h
    by_cases hu : isUndef (indexJ v k)
    · simp [lookupPath, hu] at h
    · rw [show lookupPath v [k] = some (indexJ v k) from by simp [lookupPath, hu]] at h
      have hv : indexJ v k = JVal.str [] := by
        simpa using h
      simp [tGo, hv, truthy]
  | cons k2 ks ih =>
    intro k v h
    by_cases hu : isUndef (indexJ v k)
    · simp [lookupPath, hu] at h
    · rw [show lookupPath v (k :: k2 :: ks) = lookupPath (indexJ v k) (k2 :: ks) from
        by simp [lookupPath, hu]] at h
      by_cases ht : truthy (indexJ v k)
      · rw [show tGo v (k :: k2 :: ks) key = tGo (indexJ v k) (k2 :: ks) key from
          by simp [tGo, ht]]
        exact ih k2 (indexJ v k) h
      · simp [tGo, ht]

/-- Reading back a language just written to the cache yields the written
table. -/
theorem getC_setC :
    ∀ (cache : CacheL) (lang : Str) (v : JVal),
      getC (setC cache lang v) lang = v := by
  intro cache
  induction cache with
  | nil => intro lang v; simp [setC, getC, lookupEntries]
  | cons e rest ih =>
    intro lang v
    obtain ⟨k, w⟩ := e
    by_cases h : k = lang
    · simp [setC, h, getC, lookupEntries]
    · simp only [setC, h, if_false, getC, lookupEntries] at ih ⊢
      simpa [h] using ih lang v

/-- Whatever `querySelector("h2")` returns carries the tag `h2`. -/
theorem findH2_tag_eq : ∀ (l : List Node) (h : Node),
    findH2 l = some h → Node.tag h = h2Tag := by
  intro l
  induction l using findH2.induct with
  | case1 =>
    intro h hf
    simp [findH2] at hf
  | case2 x ks rest =>
    intro h hf
    rw [show findH2 (Node.mk h2Tag x ks :: rest) =
        some (Node.mk h2Tag x ks) from by simp [findH2]] at hf
    have hh : Node.mk h2Tag x ks = h := by simpa using hf
    rw [← hh]
    rfl
  | case3 t x ks rest hT h2 hks ih =>
    intro h hf
    rw [show findH2 (Node.mk t x ks :: rest) = some h2 from
      by simp [findH2, hT, hks]] at hf
    have hh : h2 = h := by simpa using hf
    exact hh ▸ ih h2 hks
  | case4 t x ks rest hT hks ih1 ih2 =>
    intro h hf
    rw [show findH2 (Node.mk t x ks :: rest) = findH2 rest from
      by simp [findH2, hT, hks]] at hf
    exact ih2 h hf

/-- A first child tagged `h2` is what `querySelector("h2")` returns. -/
theorem findH2_cons_of_h2 (h : Node) (l : List Node)
    (hh : Node.tag h = h2Tag) : findH2 (h :: l) = some h := by
  obtain ⟨t, x, ks⟩ := h
  have ht : t = h2Tag := by simpa [Node.tag] using hh
  subst ht
  simp [findH2]

/-- A message paragraph is transparent to the `h2` search. -/
theorem findH2_pNode_cons (m : Str) (l : List Node) :
    findH2 (pNode m :: l) = findH2 l := by
  have hT : ¬ ((['p'] : Str) = h2Tag) := by decide
  simp [findH2, pNode, hT]

/-- A rendered result article contains no `h2`, so it is transparent to
the `h2` search. -/
theorem findH2_article_cons (r : SearchResult) (l : List Node) :
    findH2 (resultArticle r :: l) = findH2 l := by
  have h1 : ¬ ((['a', 'r', 't', 'i', 'c', 'l', 'e'] : Str) = h2Tag) := by decide
  have h2 : ¬ ((['h', '3'] : Str) = h2Tag) := by decide
  have h3 : ¬ ((['a'] : Str) = h2Tag) := by decide
  have h4 : ¬ ((['p'] : Str) = h2Tag) := by decide
  simp [findH2, resultArticle, h1, h2, h3, h4]

/-- A list of rendered result articles contains no `h2`. -/
theorem findH2_map_article (rs : List SearchResult) :
    findH2 (rs.map resultArticle) = none := by
  induction rs with
  | nil => simp [findH2]
  | cons r rs ih =>
    rw [List.map_cons, findH2_article_cons]
    exact ih

/-- `clearResultsEl` computes the preserved-heading list. -/
theorem clearResultsEl_eq_h2Opt (c : List Node) : clearResultsEl c = h2Opt c := rfl

/-- After a clearing render (preserved heading plus fresh `h2`-free
nodes), the `h2` search finds the same heading as in the original
container. -/
theorem findH2_rendered (c news : List Node) (hnews : findH2 news = none) :
    findH2 (h2Opt c ++ news) = findH2 c := by
  cases hf : findH2 c with
  | none => simp [h2Opt, hf, hnews]
  | some h =>
    have htag := findH2_tag_eq c h hf
    have hopt : h2Opt c = [h] := by simp [h2Opt, hf]
    rw [hopt]
    rw [show ([h] ++ news) = h :: news from rfl]
    rw [findH2_cons_of_h2 h news htag]

/-- Claim C1: for every fetched page whose extracted plain text contains a
case-insensitive occurrence of the non-empty query, the result's snippet
is built from the window `substring(max(0, idx - 80), min(length, idx + 80))`
around the first match index `idx`, trimmed of surrounding whitespace
(hence at most 160 characters before markers are inserted), with every
case-insensitive occurrence of the query inside that window wrapped in a
`<mark>` marker preserving the occurrence's original casing (in the
left-to-right non-overlapping sense of a global replace, expressed by
`MarkedCI`). -/
theorem c1_snippet_window_marking (extract : Str → Str) (files texts : List Str)
    (q : Str) (r : SearchResult) (hq : q ≠ [])
    (hr : r ∈ searchTexts extract files texts q) :
    ∃ k idx, k < texts.length ∧
      firstIdx (extract (texts.getD k [])) q = some idx ∧
      (windowOf (extract (texts.getD k [])) idx).length ≤ 160 ∧
      (trimStr (windowOf (extract (texts.getD k [])) idx)).length ≤ 160 ∧
      r.snippet = highlightAll q (trimStr (windowOf (extract (texts.getD k [])) idx)) ∧
      MarkedCI q (trimStr (windowOf (extract (texts.getD k [])) idx)) r.snippet := by
  unfold searchTexts at hr
  rw [searchGo_eq_matchList] at hr
  obtain ⟨p, hp, hres⟩ := List.mem_map.mp hr
  obtain ⟨k, hk, h1, h2, h3, h4⟩ := matchList_mem extract q texts 0 p hp
  obtain ⟨idx, hidx⟩ := Option.isSome_iff_exists.mp h4
  have hsnip : r.snippet = highlightAll q (trimStr (windowOf (extract p.2) idx)) := by
    rw [← hres]
    simp [resultOf, hidx, snippetOf]
  refine ⟨k, idx, hk, ?_, ?_, ?_, ?_, ?_⟩
  · rw [h2]
    exact hidx
  · exact windowLen_le _ _
  · exact le_trans (trimStr_len_le _) (windowLen_le _ _)
  · rw [h2]
    exact hsnip
  · rw [h2, hsnip]
    exact markedCI_highlightAll q _ hq

/-- Witness for C1 at a concrete input: page text `"hola mundo"`, query
`"mundo"`; the hypotheses hold and the theorem yields the window/marking
decomposition for the produced result. -/
theorem c1_snippet_window_marking_witness :
    ("mundo".toList : Str) ≠ [] ∧
    (⟨"a.html".toList, "hola <mark>mundo</mark>".toList⟩ : SearchResult) ∈
      searchTexts id ["a.html".toList] ["hola mundo".toList] "mundo".toList ∧
    ∃ k idx, k < (["hola mundo".toList] : List Str).length ∧
      firstIdx (id ((["hola mundo".toList] : List Str).getD k []))
        "mundo".toList = some idx ∧
      (windowOf (id ((["hola mundo".toList] : List Str).getD k [])) idx).length ≤ 160 ∧
      (trimStr (windowOf (id ((["hola mundo".toList] : List Str).getD k []))
        idx)).length ≤ 160 ∧
      (⟨"a.html".toList, "hola <mark>mundo</mark>".toList⟩ : SearchResult).snippet =
        highlightAll "mundo".toList
          (trimStr (windowOf (id ((["hola mundo".toList] : List Str).getD k [])) idx)) ∧
      MarkedCI "mundo".toList
        (trimStr (windowOf (id ((["hola mundo".toList] : List Str).getD k [])) idx))
        (⟨"a.html".toList, "hola <mark>mundo</mark>".toList⟩ : SearchResult).snippet :=
  ⟨by decide, by decide,
    c1_snippet_window_marking id ["a.html".toList] ["hola mundo".toList]
      "mundo".toList ⟨"a.html".toList, "hola <mark>mundo</mark>".toList⟩
      (by decide) (by decide)⟩

/-- Claim C2: the highlighting pattern built by `escapeRegExp` matches
exactly the literal occurrences of the query and no others — for every
query, the escaped pattern read by the literal-atom regex semantics
denotes the query itself (metacharacters are never operators), and on a
concrete page containing literal `c++` the search wraps exactly those
occurrences, as `<mark>c++</mark>` with casing preserved. -/
theorem c2_escape_literal_highlight :
    (∀ q : Str, litOf (escapeRegExp q) = some q) ∧
    searchTexts id ["tecnologias.html".toList] ["usa c++ o C++ aqui".toList]
        "c++".toList =
      [⟨"tecnologias.html".toList,
        "usa <mark>c++</mark> o <mark>C++</mark> aqui".toList⟩] :=
  ⟨litOf_escapeRegExp, by decide⟩

/-- Claim C3 (code-bug evidence): a network-level failure yields the
empty string, but an HTTP 404 response resolves (the fetch promise only
rejects on network errors) and, since `r.ok` is never checked, its body
text fills the slot unchanged — contradicting the claim and the
function's own comment that a failed request such as a 404 yields `''`.
Order and arity are as claimed: one slot per file, in file order. -/
theorem c3_fetch_status_bug :
    fetchFilesM ["missing.html".toList]
        (fun _ => Except.ok ⟨false, "Not Found".toList⟩) =
      ["Not Found".toList] ∧
    ("Not Found".toList : Str).isEmpty = false ∧
    fetchFilesM ["index.html".toList, "missing.html".toList]
        (fun f =>
          if f = "index.html".toList then
            Except.ok ⟨true, "<body>hola</body>".toList⟩
          else Except.error ()) =
      ["<body>hola</body>".toList, []] :=
  ⟨rfl, rfl, by decide⟩

/-- Claim C4: for every list of fetched page texts (one per configured
file), the result list of `search()` is exactly one result per matching
page in page-list order (`matchList` indices are strictly increasing and
characterize precisely the pages with a non-empty fetched text and a
case-insensitive occurrence of the query), and the result files form a
sublist of the configured file list. -/
theorem c4_result_order_and_membership (extract : Str → Str)
    (files texts : List Str) (q : Str) (hlen : texts.length = files.length) :
    searchTexts extract files texts q =
      (matchList extract q 0 texts).map (resultOf extract files q) ∧
    List.Pairwise (fun a b : Nat × Str => a.1 < b.1) (matchList extract q 0 texts) ∧
    (∀ p ∈ matchList extract q 0 texts, p.1 < texts.length ∧
      texts.getD p.1 [] = p.2 ∧ p.2 ≠ [] ∧
      (firstIdx (extract p.2) q).isSome = true) ∧
    (∀ k, k < texts.length → texts.getD k [] ≠ [] →
      (firstIdx (extract (texts.getD k [])) q).isSome = true →
      (k, texts.getD k []) ∈ matchList extract q 0 texts) ∧
    ((searchTexts extract files texts q).map SearchResult.file).Sublist files := by
  refine ⟨searchGo_eq_matchList extract files q texts 0,
    matchList_pairwise extract q texts 0, ?_, ?_, ?_⟩
  · intro p hp
    obtain ⟨k, hk, h1, h2, h3, h4⟩ := matchList_mem extract q texts 0 p hp
    have hpk : p.1 = k := by omega
    refine ⟨by omega, ?_, h3, h4⟩
    rw [hpk]
    exact h2
  · intro k hk hne hsome
    have := matchList_complete extract q texts 0 k hk hne hsome
    simpa using this
  · have := searchGo_file_sublist extract files q texts 0 (by omega)
    simpa using this

/-- Witness for C4 at a concrete input: two configured pages, the first
fetch failed (empty string), the second contains the query; the file
list hypothesis holds and the order/membership conclusion follows. -/
theorem c4_result_order_witness :
    ((searchTexts id ["a.html".toList, "b.html".toList]
        [[], "xx hola".toList] "hola".toList).map SearchResult.file).Sublist
      ["a.html".toList, "b.html".toList] :=
  (c4_result_order_and_membership id ["a.html".toList, "b.html".toList]
    [[], "xx hola".toList] "hola".toList (by decide)).2.2.2.2

/-- Claim C5 (counterexample): with the cached table
`\x7b a: \x7b b: "x" \x7d \x7d` for the current language, every
dot-separated segment of the key `"a"` resolves, yet `I18n.t` returns
the nested table object itself — not a string — refuting the claim that
`t` always returns a string (the resolved translation string or the
key). -/
theorem c5_translateKey_counterexample :
    tKey [("es".toList,
        JVal.obj [("a".toList, JVal.obj [("b".toList, JVal.str "x".toList)])])]
      "es".toList "a".toList =
      JVal.obj [("b".toList, JVal.str "x".toList)] ∧
    jIsStr (tKey [("es".toList,
        JVal.obj [("a".toList, JVal.obj [("b".toList, JVal.str "x".toList)])])]
      "es".toList "a".toList) = false :=
  ⟨rfl, rfl⟩

/-- Claim C5 (amended): `I18n.t` never throws (it is total) and never
returns `undefined` or `null`: when the truthiness-guarded walk of the
dotted path fails at any step (missing segment, absent table, falsy
value) it returns exactly the original key, and otherwise it returns the
final resolved value — which is truthy, is the resolved translation
string whenever the table maps the full path to a non-empty string, but
may be a subtree object when the path stops at an intermediate node. -/
theorem c5_translateKey_amended (cache : CacheL) (lang : Str) (key : Str) :
    isUndef (tKey cache lang key) = false ∧
    (match walkResolve (tableOf cache lang) (splitChar '.' key) with
      | none => tKey cache lang key = JVal.str key
      | some v => tKey cache lang key = v ∧ truthy v = true) := by
  have hkey := tGo_eq_walkResolve key (splitChar '.' key) (tableOf cache lang)
  cases hw : walkResolve (tableOf cache lang) (splitChar '.' key) with
  | none =>
    rw [hw] at hkey
    have hk2 : tKey cache lang key = JVal.str key := by
      unfold tKey
      exact hkey
    refine ⟨?_, ?_⟩
    · rw [hk2]
      rfl
    · simp only [hw]
      exact hk2
  | some v =>
    rw [hw] at hkey
    have htr : truthy v = true :=
      walkResolve_truthy (splitChar '.' key) (tableOf cache lang) v
        (truthy_tableOf cache lang) hw
    have hk2 : tKey cache lang key = v := by
      unfold tKey
      exact hkey
    refine ⟨?_, ?_⟩
    · rw [hk2]
      cases v with
      | undef => simp [truthy] at htr
      | str s => rfl
      | obj es => rfl
    · simp only [hw]
      exact ⟨hk2, htr⟩

/-- Claim C10: a key whose dot-path is defined in the cached table but
resolves to the empty string (a falsy value) makes `I18n.t` return the
original key — a translation deliberately set to the empty string is
indistinguishable from a missing one. -/
theorem c10_falsy_resolved_returns_key (cache : CacheL) (lang : Str) (key : Str)
    (h : lookupPath (tableOf cache lang) (splitChar '.' key) =
      some (JVal.str [])) :
    tKey cache lang key = JVal.str key := by
  unfold tKey
  cases hsp : splitChar '.' key with
  | nil => exact absurd (by simpa [splitChar] using hsp) (splitAuxCh_ne_nil '.' key [])
  | cons k ks =>
    rw [hsp] at h
    exact tGo_falsyHit key ks k (tableOf cache lang) h

/-- Witness for C10 at a concrete input: the table maps `x` to the empty
string; `t` returns the key `x` itself. -/
theorem c10_falsy_resolved_witness :
    tKey [("es".toList, JVal.obj [("x".toList, JVal.str [])])]
      "es".toList "x".toList = JVal.str "x".toList :=
  c10_falsy_resolved_returns_key
    [("es".toList, JVal.obj [("x".toList, JVal.str [])])]
    "es".toList "x".toList (by rfl)

/-- Claim C6: `loadTranslations` never rejects (the modelled transition
is total); once a table — a JSON object, in particular the empty object
cached after a failure — is cached for a code, any further call returns
immediately, fetches nothing and leaves the cache unchanged; and an
uncached code whose fetch fails (network error, non-ok response, or
parse error) gets the empty table cached, after which a further call is
again a no-op. -/
theorem c6_loadTranslations_cached_and_failure (cache c2 : CacheL) (lang : Str)
    (o1 o2 : Except Unit JVal) (es : List (Str × JVal))
    (h1 : getC cache lang = JVal.obj es)
    (h2 : truthy (getC c2 lang) = false) :
    loadTranslations cache lang o1 = (cache, false) ∧
    loadTranslations c2 lang (Except.error ()) =
      (setC c2 lang (JVal.obj []), true) ∧
    loadTranslations (setC c2 lang (JVal.obj [])) lang o2 =
      (setC c2 lang (JVal.obj []), false) := by
  refine ⟨?_, ?_, ?_⟩
  · unfold loadTranslations
    rw [h1]
    simp [truthy]
  · unfold loadTranslations
    rw [if_neg (by simp [h2])]
  · unfold loadTranslations
    rw [getC_setC]
    simp [truthy]

/-- Witness for C6 at concrete inputs: a cache already holding the empty
table for `es` is untouched by any outcome (no fetch), an empty cache
plus a failing fetch caches the empty table, and the next call is a
no-op. -/
theorem c6_loadTranslations_witness :
    loadTranslations [("es".toList, JVal.obj [])] "es".toList
        (Except.ok (JVal.str "hola".toList)) =
      ([("es".toList, JVal.obj [])], false) ∧
    loadTranslations [] "es".toList (Except.error ()) =
      ([("es".toList, JVal.obj [])], true) ∧
    loadTranslations [("es".toList, JVal.obj [])] "es".toList
        (Except.ok (JVal.obj [])) =
      ([("es".toList, JVal.obj [])], false) :=
  c6_loadTranslations_cached_and_failure [("es".toList, JVal.obj [])] []
    "es".toList (Except.ok (JVal.str "hola".toList)) (Except.ok (JVal.obj []))
    [] rfl rfl

/-- Changing the children does not change the preserved-heading list when
the `h2` search agrees. -/
theorem h2Opt_congr (a b : List Node) (h : findH2 a = findH2 b) :
    h2Opt a = h2Opt b := by
  unfold h2Opt
  rw [h]

/-- Claim C7 (counterexample): `renderNoQuery` does not clear the
container: rendering over a container holding one prior paragraph keeps
that paragraph and appends the message, so the container does not hold
exactly the newly rendered nodes (plus a preserved heading). -/
theorem c7_renderNoQuery_counterexample :
    renderNoQuery "nuevo".toList [pNode "viejo".toList] =
      [pNode "viejo".toList, pNode "nuevo".toList] ∧
    (renderNoQuery "nuevo".toList [pNode "viejo".toList]).length = 2 :=
  ⟨rfl, rfl⟩

/-- Claim C7 (amended): `renderNoResults` and `renderResults` always
clear first, so after any of them — and after any composition of them —
the container holds exactly the preserved heading (the first `h2`
descendant of the original container, if any) plus the newly rendered
nodes, never accumulating; `renderNoQuery`, however, appends its message
paragraph without clearing, so repeated calls accumulate. -/
theorem c7_render_modes_amended (c : List Node) (m1 m2 : Str)
    (rs1 rs2 : List SearchResult) :
    renderNoResults m1 c = h2Opt c ++ [pNode m1] ∧
    renderResults rs1 c = h2Opt c ++ rs1.map resultArticle ∧
    renderNoResults m2 (renderNoResults m1 c) = h2Opt c ++ [pNode m2] ∧
    renderResults rs2 (renderResults rs1 c) = h2Opt c ++ rs2.map resultArticle ∧
    renderResults rs2 (renderNoResults m1 c) = h2Opt c ++ rs2.map resultArticle ∧
    renderNoResults m2 (renderResults rs1 c) = h2Opt c ++ [pNode m2] ∧
    renderNoQuery m2 (renderNoQuery m1 c) = c ++ [pNode m1, pNode m2] := by
  have hnil : findH2 ([] : List Node) = none := by simp [findH2]
  have hpn1 : findH2 [pNode m1] = none := by
    rw [findH2_pNode_cons]
    exact hnil
  have harts1 : findH2 (rs1.map resultArticle) = none := findH2_map_article rs1
  have key1 : h2Opt (h2Opt c ++ [pNode m1]) = h2Opt c :=
    h2Opt_congr _ _ (findH2_rendered c [pNode m1] hpn1)
  have key2 : h2Opt (h2Opt c ++ rs1.map resultArticle) = h2Opt c :=
    h2Opt_congr _ _ (findH2_rendered c (rs1.map resultArticle) harts1)
  refine ⟨rfl, rfl, ?_, ?_, ?_, ?_, ?_⟩
  · show h2Opt (h2Opt c ++ [pNode m1]) ++ [pNode m2] = h2Opt c ++ [pNode m2]
    rw [key1]
  · show h2Opt (h2Opt c ++ rs1.map resultArticle) ++ rs2.map resultArticle =
      h2Opt c ++ rs2.map resultArticle
    rw [key2]
  · show h2Opt (h2Opt c ++ [pNode m1]) ++ rs2.map resultArticle =
      h2Opt c ++ rs2.map resultArticle
    rw [key1]
  · show h2Opt (h2Opt c ++ rs1.map resultArticle) ++ [pNode m2] =
      h2Opt c ++ [pNode m2]
    rw [key2]
  · show (c ++ [pNode m1]) ++ [pNode m2] = c ++ [pNode m1, pNode m2]
    simp

/-- Claim C8 (counterexample): with no stored preference and the locale
`de-DE`, the constructor sets the current language to `de`, which is not
in the supported set — the fixed default `es` is not applied, refuting
"falls back to es whenever neither source yields a supported code" and
"the initial language is always supported". -/
theorem c8_initialLanguage_counterexample :
    initialLanguage none "de-DE".toList = "de".toList ∧
    supportedLanguages.contains "de".toList = false :=
  ⟨rfl, rfl⟩

/-- Claim C8 (amended): the initial language is the stored preference
when present and non-empty, else the locale's primary subtag when
non-empty, else the fixed default `es`; it is always non-empty, but no
supported-set check is performed, so it may be an unsupported code. -/
theorem c8_initialLanguage_amended (stored : Option Str) (nav : Str) :
    (initialLanguage stored nav).isEmpty = false ∧
    initialLanguage stored nav =
      (if stored.getD [] = [] then
        (if localePrimary nav = [] then esL else localePrimary nav)
      else stored.getD []) := by
  unfold initialLanguage getStoredLanguage orStr
  by_cases hs : stored.getD [] = []
  · by_cases hn : localePrimary nav = []
    · simp [hs, hn, esL]
    · cases hnav : localePrimary nav with
      | nil => exact absurd hnav hn
      | cons a l => simp [hs, hnav]
  · cases hst : stored.getD [] with
    | nil => exact absurd hst hs
    | cons a l => simp [hst]

/-- Claim C9 (counterexample): in the first variant of `run()` an
exception from `search()` is caught and logged, but no error message is
rendered — the results container is left exactly as it was (here, a lone
heading and no paragraph at all). -/
theorem c9_run_counterexample :
    runV1 (Except.error "boom".toList) [Node.mk h2Tag "Resultados".toList []] =
      ⟨[Node.mk h2Tag "Resultados".toList []], some "boom".toList, false⟩ ∧
    ((runV1 (Except.error "boom".toList)
        [Node.mk h2Tag "Resultados".toList []]).container.all
      (fun n => n.tag == h2Tag)) = true :=
  ⟨rfl, rfl⟩

/-- Claim C9 (amended): both variants of `run()` catch every exception
of `search()` (nothing escapes to the caller) and log it; the module
variant additionally replaces the results container with the generic
error paragraph, while the commented variant leaves the container
exactly as the failing `search()` left it (no user-visible message). -/
theorem c9_run_amended (res : Except Str (List Node)) (cth : List Node) (e : Str) :
    (runV1 res cth).escaped = false ∧
    (runV2 res cth).escaped = false ∧
    runV1 (Except.error e) cth = ⟨cth, some e, false⟩ ∧
    runV2 (Except.error e) cth = ⟨[errNode], some e, false⟩ := by
  refine ⟨?_, ?_, rfl, rfl⟩
  · cases res <;> rfl
  · cases res <;> rfl
